import Mathlib

/-!
Verification of the Web_Scraper repository's specification against a shallow
embedding of its source code (src/scraper.py, src/utils.py, src/rag.py).

Strings are modelled as `List Char` so that the character-level regular
expression substitutions of the Python source can be embedded as structurally
recursive functions.  Python dictionaries (chunk metadata) are modelled as
insertion-ordered association lists.  Third-party library calls
(langchain text splitters, playwright page fetching) are not repository code;
where a repository function invokes them, the call is a parameter of the
embedded function and the repository's own control flow around it is embedded
faithfully.
-/

/-- Whitespace test for Python regular expression class `\s` and `str.strip`,
on the ASCII/Latin-1 range: space, tab, newline, carriage return, vertical
tab, form feed, the separator controls 0x1C-0x1F, NEL 0x85 and NBSP 0xA0. -/
def isPySpace (c : Char) : Bool :=
  c == ' ' || c == '\t' || c == '\n' || c == '\r' ||
  c.toNat == 0x0B || c.toNat == 0x0C ||
  (0x1C ≤ c.toNat && c.toNat ≤ 0x1F) || c.toNat == 0x85 || c.toNat == 0xA0

/-- Word-character test for Python regular expression class `\w`
(ASCII core): letters, digits and underscore. -/
def isWordChar (c : Char) : Bool :=
  c.isAlphanum || c == '_'

/-- Test whether `p` is a leading segment of `l`
(Python `str.startswith`). -/
def startsWith : List Char → List Char → Bool
  | [], _ => true
  | _ :: _, [] => false
  | p :: ps, x :: xs => p == x && startsWith ps xs

/-- Lookup in an insertion-ordered association list
(Python `dict.__getitem__`, partial). -/
def getVal : List (String × String) → String → Option String
  | [], _ => none
  | (k, v) :: rest, key => if k = key then some v else getVal rest key

/-- Python `dict.get(key, default)`. -/
def getValD (m : List (String × String)) (key d : String) : String :=
  (getVal m key).getD d

/-- Set a key in an insertion-ordered association list: replace the value in
place when the key is present, append otherwise (Python `dict.__setitem__`). -/
def setKey : List (String × String) → String → String → List (String × String)
  | [], k, v => [(k, v)]
  | (k2, v2) :: rest, k, v =>
      if k2 = k then (k2, v) :: rest else (k2, v2) :: setKey rest k v

/-- Python `dict.update`: set every pair of `base` into `m` in order. -/
def dictUpdate (m base : List (String × String)) : List (String × String) :=
  base.foldl (fun acc p => setKey acc p.1 p.2) m

/-- A langchain `Document`: chunk text plus metadata
(spec section 3, "Document/Chunk"). -/
structure Doc where
  page_content : List Char
  metadata : List (String × String)
deriving DecidableEq

/-! ## Robots compliance checker (src/scraper.py, `check_robots_txt`) -/

/-- Result of `urllib.robotparser` parsing a robots.txt file: an oracle
answering `can_fetch(useragent, url)`.  The parsing itself is standard-library
code, not repository code. -/
structure RobotsPolicy where
  can_fetch : String → String → Bool

/-- Embedding of `check_robots_txt` (src/scraper.py lines 14-29).  The
`parser.read()` step is network and standard-library code; its outcome is the
`read_result` parameter: an exception (`Except.error`) or a parsed policy.
The repository's control flow is: on success return
`parser.can_fetch("*", url)`, on any exception log and return `True`. -/
def check_robots_txt (read_result : Except String RobotsPolicy) (url : String) : Bool :=
  match read_result with
  | Except.ok parser => parser.can_fetch "*" url
  | Except.error _ => true

/-- C5: for every URL, if fetching or parsing robots.txt fails (modelled as
the read step raising an exception), `check_robots_txt` returns `true`
(fail-open); it returns `false` only when a successfully parsed policy
disallows the URL for user agent `"*"`. -/
theorem C5_fail_open :
    (∀ (e : String) (url : String), check_robots_txt (Except.error e) url = true) ∧
    (∀ (p : RobotsPolicy) (url : String),
      check_robots_txt (Except.ok p) url = false → p.can_fetch "*" url = false) := by
  constructor
  · intro e url; rfl
  · intro p url h; exact h

/-- Witness for C5: a concrete exception yields `true`, and for the policy
that disallows everything the theorem yields that `can_fetch` answered
`false`. -/
theorem C5_fail_open_witness :
    check_robots_txt (Except.error "timeout") "https://example.com/a" = true ∧
    RobotsPolicy.can_fetch ⟨fun _ _ => false⟩ "*" "https://example.com/a" = false := by
  refine ⟨C5_fail_open.1 "timeout" "https://example.com/a", ?_⟩
  exact C5_fail_open.2 ⟨fun _ _ => false⟩ "https://example.com/a" rfl

/-! ## Filename sanitizer (src/utils.py, `sanitize_filename`) -/

/-- Character class of `re.sub(r'[\/:*?"<>|]', '_', ...)` in
`sanitize_filename` (src/utils.py line 55). -/
def isBadFileChar (c : Char) : Bool :=
  c == '/' || c == ':' || c == '*' || c == '?' || c == '"' ||
  c == '<' || c == '>' || c == '|'

/-- Replacement applied to each character by `sanitize_filename`. -/
def replBad (c : Char) : Char :=
  if isBadFileChar c then '_' else c

/-- Embedding of `re.sub(r'^https?:\/\/', '', url)`: strip one leading
`https://` or `http://` scheme (src/utils.py line 54). -/
def stripScheme (l : List Char) : List Char :=
  if startsWith "https://".toList l then l.drop 8
  else if startsWith "http://".toList l then l.drop 7
  else l

/-- Embedding of `sanitize_filename` (src/utils.py lines 52-56): strip the
scheme, replace the unsafe characters by `_`, truncate to 100 characters. -/
def sanitize_filename (url : List Char) : List Char :=
  ((stripScheme url).map replBad).take 100

theorem startsWith_append (p l : List Char) : startsWith p (p ++ l) = true := by
  induction p with
  | nil => rfl
  | cons x xs ih => simp [startsWith, ih]

/-- C9: `sanitize_filename "https://example.com/a:b?c" = "example.com_a_b_c"`;
for every input the leading `http://` or `https://` scheme is removed, no
unsafe character survives, and the result has length at most 100. -/
theorem C9_sanitize_filename_spec :
    sanitize_filename "https://example.com/a:b?c".toList = "example.com_a_b_c".toList ∧
    (∀ u : List Char, (sanitize_filename u).length ≤ 100) ∧
    (∀ u : List Char, (sanitize_filename u).all (fun c => !(isBadFileChar c)) = true) ∧
    (∀ u : List Char,
      sanitize_filename ("https://".toList ++ u) = (u.map replBad).take 100) ∧
    (∀ u : List Char,
      sanitize_filename ("http://".toList ++ u) = (u.map replBad).take 100) := by
  refine ⟨by decide, ?_, ?_, ?_, ?_⟩
  · intro u
    exact List.length_take_le 100 _
  · intro u
    rw [List.all_eq_true]
    intro c hc
    have hc2 : c ∈ (stripScheme u).map replBad := List.mem_of_mem_take hc
    obtain ⟨a, _, rfl⟩ := List.mem_map.mp hc2
    by_cases hb : isBadFileChar a = true
    · simp [replBad, hb]
      decide
    · simp only [Bool.not_eq_true] at hb
      simp [replBad, hb]
  · intro u
    simp [sanitize_filename, stripScheme, startsWith]
  · intro u
    simp [sanitize_filename, stripScheme, startsWith]

/-! ## Header metadata enrichment (src/scraper.py lines 155-173) -/

/-- Embedding of `base_metadata` (src/scraper.py lines 147-153). -/
def base_metadata_of (url title desc sel : String) : List (String × String) :=
  [("source", url), ("title", title), ("description", desc),
   ("selector_used", sel), ("content_type", "markdown")]

/-- Embedding of the per-split metadata enrichment in `scrape_and_process_url`
(src/scraper.py lines 163-168): `split.metadata.update(base_metadata)`, then
`header_info = split.metadata.get('Header 1', '') or
split.metadata.get('Header 2', '')`, and if `header_info` is truthy, set
`split.metadata['section'] = header_info`. -/
def enrichMeta (base split_md : List (String × String)) : List (String × String) :=
  let m1 := dictUpdate split_md base
  let header_info :=
    if getValD m1 "Header 1" "" ≠ "" then getValD m1 "Header 1" ""
    else getValD m1 "Header 2" ""
  if header_info ≠ "" then setKey m1 "section" header_info else m1

/-- A concrete `base_metadata` instance used to evaluate the enrichment. -/
def base_ex : List (String × String) :=
  base_metadata_of "https://example.com" "Example" "" "article"

/-- C1: the code never sets the `section` field.  The splitter is configured
with `headers_to_split_on = [("#", "H1"), ("##", "H2"), ("###", "H3")]`
(src/scraper.py line 135), so a header-derived split's metadata carries the
keys `H1`/`H2`/`H3`; the enrichment however reads `'Header 1'`/`'Header 2'`,
keys that never occur, hence `section` is absent for every header text.  Had
the metadata carried the key `'Header 1'`, `section` would have been set. -/
theorem C1_no_section_for_header_labels :
    ∀ hv : String,
      getVal (enrichMeta base_ex [("H1", hv)]) "section" = none ∧
      getVal (enrichMeta base_ex [("H2", hv)]) "section" = none ∧
      getVal (enrichMeta base_ex [("Header 1", "Overview")]) "section" = some "Overview" := by
  intro hv
  refine ⟨rfl, rfl, rfl⟩

/-! ## Character-run machinery for the regular-expression collapses -/

/-- Streak scanner: `runChk c t k l` is `true` iff scanning `l` left to
right, starting from a current streak of `k` consecutive `c`s, ever reaches a
streak of `t` or more consecutive `c`s. -/
def runChk (c : Char) (t : Nat) : Nat → List Char → Bool
  | _, [] => false
  | k, x :: xs =>
      if x = c then decide (t ≤ k + 1) || runChk c t (k + 1) xs
      else runChk c t 0 xs

/-- `hasRunGe c t l` holds iff `l` contains `t` or more consecutive
occurrences of the character `c`. -/
def hasRunGe (c : Char) (t : Nat) (l : List Char) : Bool :=
  runChk c t 0 l

/-- Replacement emitted for a maximal run of `n` copies of `c` by a Python
substitution `re.sub(C{3,}, C * keep, ...)`: runs of length at least 3
become `keep` copies, shorter runs are kept unchanged. -/
def emitRun (c : Char) (keep n : Nat) : List Char :=
  List.replicate (if 3 ≤ n then keep else n) c

/-- Worker for `collapseRun`; `n` is the length of the pending run of `c`s
already scanned. -/
def collapseAux (c : Char) (keep : Nat) : Nat → List Char → List Char
  | n, [] => emitRun c keep n
  | n, x :: xs =>
      if x = c then collapseAux c keep (n + 1) xs
      else emitRun c keep n ++ x :: collapseAux c keep 0 xs

/-- Embedding of `re.sub(r'C{3,}', 'C' * keep, text)` for a single character
`C`: every maximal run of at least 3 `c`s is replaced by `keep` copies
(src/scraper.py lines 37-41 with keep = 2; src/utils.py lines 24-25 with
keep = 3). -/
def collapseRun (c : Char) (keep : Nat) (l : List Char) : List Char :=
  collapseAux c keep 0 l

theorem runChk_nil (c : Char) (t k : Nat) : runChk c t k [] = false := rfl

theorem runChk_cons_ne {c x : Char} (t k : Nat) (l : List Char) (h : x ≠ c) :
    runChk c t k (x :: l) = runChk c t 0 l := by
  simp [runChk, h]

theorem runChk_cons_self (c : Char) (t k : Nat) (l : List Char) :
    runChk c t k (c :: l) = (decide (t ≤ k + 1) || runChk c t (k + 1) l) := by
  simp [runChk]

theorem runChk_le_false {c : Char} {t : Nat} :
    ∀ (l : List Char) (k k2 : Nat), k2 ≤ k → runChk c t k l = false →
      runChk c t k2 l = false := by
  intro l
  induction l with
  | nil => intro k k2 _ _; rfl
  | cons x xs ih =>
    intro k k2 hk h
    by_cases hx : x = c
    · subst hx
      rw [runChk_cons_self] at h ⊢
      rcases Bool.or_eq_false_iff.mp h with ⟨h1, h2⟩
      have ht : ¬ (t ≤ k + 1) := of_decide_eq_false h1
      refine Bool.or_eq_false_iff.mpr ⟨decide_eq_false (by omega), ?_⟩
      exact ih (k + 1) (k2 + 1) (by omega) h2
    · rw [runChk_cons_ne _ _ _ hx] at h ⊢
      exact h


theorem runChk_false_tail {c x : Char} {t : Nat} {l : List Char}
    (h : runChk c t 0 (x :: l) = false) : runChk c t 0 l = false := by
  by_cases hx : x = c
  · subst hx
    rw [runChk_cons_self] at h
    rcases Bool.or_eq_false_iff.mp h with ⟨_, h2⟩
    exact runChk_le_false l 1 0 (by omega) h2
  · rwa [runChk_cons_ne _ _ _ hx] at h

theorem runChk_of_not_mem {c : Char} (t : Nat) :
    ∀ (l : List Char) (k : Nat), (∀ ch ∈ l, ch ≠ c) → runChk c t k l = false := by
  intro l
  induction l with
  | nil => intro k _; rfl
  | cons x xs ih =>
    intro k hfree
    have hx : x ≠ c := hfree x (List.mem_cons_self x xs)
    rw [runChk_cons_ne _ _ _ hx]
    exact ih 0 (fun ch hch => hfree ch (List.mem_cons_of_mem x hch))

theorem runChk_append_free {c : Char} (t : Nat) :
    ∀ (a : List Char) (k : Nat) (z : List Char), a ≠ [] → (∀ ch ∈ a, ch ≠ c) →
      runChk c t k (a ++ z) = runChk c t 0 z := by
  intro a
  induction a with
  | nil => intro k z ha _; exact absurd rfl ha
  | cons x a2 ih =>
    intro k z _ hfree
    have hx : x ≠ c := hfree x (List.mem_cons_self x a2)
    rw [List.cons_append, runChk_cons_ne _ _ _ hx]
    cases a2 with
    | nil => rfl
    | cons y a3 =>
      exact ih 0 z (by simp) (fun ch hch => hfree ch (List.mem_cons_of_mem x hch))

theorem runChk_replicate_lt {c : Char} {t : Nat} :
    ∀ (m k : Nat) (l : List Char), k + m < t →
      runChk c t k (List.replicate m c ++ l) = runChk c t (k + m) l := by
  intro m
  induction m with
  | zero => intro k l _; simp
  | succ m ih =>
    intro k l h
    rw [List.replicate_succ, List.cons_append, runChk_cons_self]
    have h1 : decide (t ≤ k + 1) = false := decide_eq_false (by omega)
    rw [h1, Bool.false_or, ih (k + 1) l (by omega)]
    have : k + 1 + m = k + (m + 1) := by omega
    rw [this]

theorem runChk_t_mono {c : Char} {t t2 : Nat} (ht : t ≤ t2) :
    ∀ (l : List Char) (k : Nat), runChk c t k l = false → runChk c t2 k l = false := by
  intro l
  induction l with
  | nil => intro k _; rfl
  | cons x xs ih =>
    intro k h
    by_cases hx : x = c
    · subst hx
      rw [runChk_cons_self] at h ⊢
      rcases Bool.or_eq_false_iff.mp h with ⟨h1, h2⟩
      have hnt : ¬ (t ≤ k + 1) := of_decide_eq_false h1
      exact Bool.or_eq_false_iff.mpr ⟨decide_eq_false (by omega), ih (k + 1) h2⟩
    · rw [runChk_cons_ne _ _ _ hx] at h ⊢
      exact ih 0 h

theorem runChk_false_left {c : Char} {t : Nat} :
    ∀ (l1 u : List Char) (k : Nat), runChk c t k (l1 ++ u) = false →
      runChk c t k l1 = false := by
  intro l1
  induction l1 with
  | nil => intro u k _; rfl
  | cons x xs ih =>
    intro u k h
    by_cases hx : x = c
    · subst hx
      rw [List.cons_append, runChk_cons_self] at h
      rw [runChk_cons_self]
      rcases Bool.or_eq_false_iff.mp h with ⟨h1, h2⟩
      exact Bool.or_eq_false_iff.mpr ⟨h1, ih u (k + 1) h2⟩
    · rw [List.cons_append, runChk_cons_ne _ _ _ hx] at h
      rw [runChk_cons_ne _ _ _ hx]
      exact ih u 0 h

theorem runChk_append_sep {c x : Char} {t : Nat} (hx : x ≠ c) :
    ∀ (a : List Char) (k : Nat) (m : List Char), runChk c t k a = false →
      runChk c t 0 m = false → runChk c t k (a ++ x :: m) = false := by
  intro a
  induction a with
  | nil => intro k m _ hm; rw [List.nil_append, runChk_cons_ne _ _ _ hx]; exact hm
  | cons y a2 ih =>
    intro k m ha hm
    by_cases hy : y = c
    · subst hy
      rw [runChk_cons_self] at ha
      rcases Bool.or_eq_false_iff.mp ha with ⟨h1, h2⟩
      rw [List.cons_append, runChk_cons_self]
      exact Bool.or_eq_false_iff.mpr ⟨h1, ih (k + 1) m h2 hm⟩
    · rw [runChk_cons_ne _ _ _ hy] at ha
      rw [List.cons_append, runChk_cons_ne _ _ _ hy]
      exact ih 0 m ha hm

theorem collapseAux_noRun {c : Char} {keep : Nat} (hkeep : keep ≤ 2) :
    ∀ (xs : List Char) (n : Nat), runChk c 3 0 (collapseAux c keep n xs) = false := by
  intro xs
  induction xs with
  | nil =>
    intro n
    show runChk c 3 0 (emitRun c keep n) = false
    unfold emitRun
    have hm : (if 3 ≤ n then keep else n) ≤ 2 := by split <;> omega
    have := @runChk_replicate_lt c 3 (if 3 ≤ n then keep else n) 0 []
      (by omega)
    rw [List.append_nil] at this
    rw [this]
    rfl
  | cons x xs ih =>
    intro n
    by_cases hx : x = c
    · show runChk c 3 0 (if x = c then collapseAux c keep (n + 1) xs
        else emitRun c keep n ++ x :: collapseAux c keep 0 xs) = false
      rw [if_pos hx]
      exact ih (n + 1)
    · show runChk c 3 0 (if x = c then collapseAux c keep (n + 1) xs
        else emitRun c keep n ++ x :: collapseAux c keep 0 xs) = false
      rw [if_neg hx]
      unfold emitRun
      have hm : (if 3 ≤ n then keep else n) ≤ 2 := by split <;> omega
      rw [runChk_replicate_lt (if 3 ≤ n then keep else n) 0 _ (by omega),
        runChk_cons_ne _ _ _ hx]
      exact ih 0

theorem collapseAux_head {c : Char} {keep : Nat} (hkeep : 1 ≤ keep) :
    ∀ (xs : List Char) (n : Nat), 1 ≤ n →
      ∃ tl, collapseAux c keep n xs = c :: tl := by
  intro xs
  induction xs with
  | nil =>
    intro n hn
    show ∃ tl, emitRun c keep n = c :: tl
    unfold emitRun
    have hm : 1 ≤ (if 3 ≤ n then keep else n) := by split <;> omega
    cases hcase : (if 3 ≤ n then keep else n) with
    | zero => omega
    | succ m => exact ⟨List.replicate m c, by rw [List.replicate_succ]⟩
  | cons x xs ih =>
    intro n hn
    by_cases hx : x = c
    · show ∃ tl, (if x = c then collapseAux c keep (n + 1) xs
        else emitRun c keep n ++ x :: collapseAux c keep 0 xs) = c :: tl
      rw [if_pos hx]
      exact ih (n + 1) (by omega)
    · show ∃ tl, (if x = c then collapseAux c keep (n + 1) xs
        else emitRun c keep n ++ x :: collapseAux c keep 0 xs) = c :: tl
      rw [if_neg hx]
      unfold emitRun
      have hm : 1 ≤ (if 3 ≤ n then keep else n) := by split <;> omega
      cases hcase : (if 3 ≤ n then keep else n) with
      | zero => omega
      | succ m =>
        exact ⟨List.replicate m c ++ x :: collapseAux c keep 0 xs,
          by rw [List.replicate_succ, List.cons_append]⟩

theorem collapseAux_pres {c d : Char} (hcd : c ≠ d) :
    ∀ (xs : List Char) (n j : Nat), runChk d 3 j xs = false →
      runChk d 3 j (collapseAux c 2 n xs) = false := by
  intro xs
  induction xs with
  | nil =>
    intro n j _
    show runChk d 3 j (emitRun c 2 n) = false
    exact runChk_of_not_mem 3 _ j
      (fun ch hch => by rw [List.eq_of_mem_replicate hch]; exact hcd)
  | cons x xs ih =>
    intro n j h
    by_cases hx : x = c
    · have hxd : x ≠ d := by rw [hx]; exact hcd
      show runChk d 3 j (if x = c then collapseAux c 2 (n + 1) xs
        else emitRun c 2 n ++ x :: collapseAux c 2 0 xs) = false
      rw [if_pos hx]
      rw [runChk_cons_ne _ _ _ hxd] at h
      have h0 : runChk d 3 0 (collapseAux c 2 (n + 1) xs) = false := ih (n + 1) 0 h
      obtain ⟨tl, htl⟩ := @collapseAux_head c 2 (by omega) xs
        (n + 1) (by omega)
      rw [htl] at h0 ⊢
      rw [runChk_cons_ne _ _ _ hcd] at h0 ⊢
      exact h0
    · show runChk d 3 j (if x = c then collapseAux c 2 (n + 1) xs
        else emitRun c 2 n ++ x :: collapseAux c 2 0 xs) = false
      rw [if_neg hx]
      unfold emitRun
      have hfree : ∀ ch ∈ List.replicate (if 3 ≤ n then 2 else n) c, ch ≠ d :=
        fun ch hch => by rw [List.eq_of_mem_replicate hch]; exact hcd
      by_cases hxd : x = d
      · subst hxd
        rw [runChk_cons_self] at h
        rcases Bool.or_eq_false_iff.mp h with ⟨h1, h2⟩
        cases hcase : (if 3 ≤ n then 2 else n) with
        | zero =>
          rw [hcase] at hfree
          simp only [List.replicate_zero, List.nil_append]
          rw [runChk_cons_self, h1, Bool.false_or]
          exact ih 0 (j + 1) h2
        | succ m =>
          rw [hcase] at hfree
          rw [runChk_append_free 3 _ j _ (by simp) hfree, runChk_cons_self]
          have h0 : decide (3 ≤ 0 + 1) = false := by decide
          rw [h0, Bool.false_or]
          exact ih 0 1 (runChk_le_false xs (j + 1) 1 (by omega) h2)
      · rw [runChk_cons_ne _ _ _ hxd] at h
        cases hcase : (if 3 ≤ n then 2 else n) with
        | zero =>
          simp only [List.replicate_zero, List.nil_append]
          rw [runChk_cons_ne _ _ _ hxd]
          exact ih 0 0 h
        | succ m =>
          rw [hcase] at hfree
          rw [runChk_append_free 3 _ j _ (by simp) hfree,
            runChk_cons_ne _ _ _ hxd]
          exact ih 0 0 h

/-! ## Python `str.strip` and `str.split`/`str.join` on newline -/

/-- Remove the trailing characters of `l` satisfying `p`. -/
def stripRight (p : Char → Bool) : List Char → List Char
  | [] => []
  | x :: xs =>
      match stripRight p xs with
      | [] => if p x then [] else [x]
      | y :: ys => x :: y :: ys

/-- Embedding of Python `str.strip()` (with `p := isPySpace`): drop leading
and trailing whitespace. -/
def pyStrip (p : Char → Bool) (l : List Char) : List Char :=
  stripRight p (l.dropWhile p)

theorem stripRight_pre (p : Char → Bool) :
    ∀ l : List Char, ∃ u, l = stripRight p l ++ u := by
  intro l
  induction l with
  | nil => exact ⟨[], rfl⟩
  | cons x xs ih =>
    obtain ⟨u, hu⟩ := ih
    cases hr : stripRight p xs with
    | nil =>
      show ∃ u2, x :: xs = (match stripRight p xs with
        | [] => if p x then [] else [x]
        | y :: ys => x :: y :: ys) ++ u2
      rw [hr]
      by_cases hp : p x = true
      · rw [if_pos hp]; exact ⟨x :: xs, rfl⟩
      · rw [if_neg hp]
        refine ⟨xs, rfl⟩
    | cons y ys =>
      show ∃ u2, x :: xs = (match stripRight p xs with
        | [] => if p x then [] else [x]
        | y :: ys => x :: y :: ys) ++ u2
      rw [hr]
      rw [hr] at hu
      exact ⟨u, by rw [List.cons_append, ← hu]⟩

theorem runChk_false_dropWhile {c : Char} {t : Nat} (p : Char → Bool) :
    ∀ l : List Char, runChk c t 0 l = false →
      runChk c t 0 (l.dropWhile p) = false := by
  intro l
  induction l with
  | nil => intro _; rfl
  | cons x xs ih =>
    intro h
    rw [List.dropWhile_cons]
    split
    · exact ih (runChk_false_tail h)
    · exact h

theorem runChk_false_pyStrip {c : Char} {t : Nat} (p : Char → Bool)
    {l : List Char} (h : runChk c t 0 l = false) :
    runChk c t 0 (pyStrip p l) = false := by
  have h1 := runChk_false_dropWhile p l h
  obtain ⟨u, hu⟩ := stripRight_pre p (l.dropWhile p)
  rw [hu] at h1
  exact runChk_false_left _ u 0 h1

theorem mem_of_mem_dropWhile {p : Char → Bool} :
    ∀ {l : List Char} {ch : Char}, ch ∈ l.dropWhile p → ch ∈ l := by
  intro l
  induction l with
  | nil => intro ch h; exact absurd h (by simp)
  | cons x xs ih =>
    intro ch h
    rw [List.dropWhile_cons] at h
    by_cases hp : p x = true
    · rw [if_pos hp] at h
      exact List.mem_cons_of_mem x (ih h)
    · rw [if_neg hp] at h
      exact h

theorem mem_of_mem_pyStrip {p : Char → Bool} {l : List Char} {ch : Char}
    (h : ch ∈ pyStrip p l) : ch ∈ l := by
  obtain ⟨u, hu⟩ := stripRight_pre p (l.dropWhile p)
  apply @mem_of_mem_dropWhile p l ch
  rw [hu]
  exact List.mem_append_left u h

theorem dropWhile_head_not {p : Char → Bool} :
    ∀ l : List Char, l.dropWhile p = [] ∨
      ∃ a l2, l.dropWhile p = a :: l2 ∧ p a = false := by
  intro l
  induction l with
  | nil => exact Or.inl rfl
  | cons x xs ih =>
    rw [List.dropWhile_cons]
    by_cases hp : p x = true
    · rw [if_pos hp]; exact ih
    · rw [if_neg hp]
      exact Or.inr ⟨x, xs, rfl, by simpa using hp⟩

theorem stripRight_idem (p : Char → Bool) :
    ∀ l : List Char, stripRight p (stripRight p l) = stripRight p l := by
  intro l
  induction l with
  | nil => rfl
  | cons x xs ih =>
    cases hr : stripRight p xs with
    | nil =>
      show stripRight p (match stripRight p xs with
        | [] => if p x then [] else [x]
        | y :: ys => x :: y :: ys) = (match stripRight p xs with
        | [] => if p x then [] else [x]
        | y :: ys => x :: y :: ys)
      rw [hr]
      by_cases hp : p x = true
      · rw [if_pos hp]; rfl
      · rw [if_neg hp]
        show (match stripRight p [] with
          | [] => if p x then [] else [x]
          | y :: ys => x :: y :: ys) = [x]
        rw [show stripRight p ([] : List Char) = [] from rfl, if_neg hp]
    | cons y ys =>
      show stripRight p (match stripRight p xs with
        | [] => if p x then [] else [x]
        | y :: ys => x :: y :: ys) = (match stripRight p xs with
        | [] => if p x then [] else [x]
        | y :: ys => x :: y :: ys)
      rw [hr]
      rw [hr] at ih
      show (match stripRight p (y :: ys) with
        | [] => if p x then [] else [x]
        | z :: zs => x :: z :: zs) = x :: y :: ys
      rw [ih]

theorem pyStrip_idem (p : Char → Bool) (l : List Char) :
    pyStrip p (pyStrip p l) = pyStrip p l := by
  unfold pyStrip
  rcases @dropWhile_head_not p l with hA | ⟨a, l2, hA, hpa⟩
  · rw [hA]
    rfl
  · rw [hA]
    have hsr : stripRight p (a :: l2) = [] ∨
        ∃ w, stripRight p (a :: l2) = a :: w := by
      cases hr : stripRight p l2 with
      | nil =>
        have he : stripRight p (a :: l2) = [a] := by
          show (match stripRight p l2 with
            | [] => if p a then [] else [a]
            | y :: ys => a :: y :: ys) = [a]
          rw [hr]
          rw [if_neg (by simpa using hpa)]
        exact Or.inr ⟨[], he⟩
      | cons y ys =>
        refine Or.inr ⟨y :: ys, ?_⟩
        show (match stripRight p l2 with
          | [] => if p a then [] else [a]
          | z :: zs => a :: z :: zs) = a :: y :: ys
        rw [hr]
    rcases hsr with hsr | ⟨w, hsr⟩
    · rw [hsr]; rfl
    · rw [hsr]
      rw [List.dropWhile_cons, if_neg (by simpa using hpa)]
      have := stripRight_idem p (a :: l2)
      rw [hsr] at this
      exact this

/-- Worker for `splitNl`: first segment and remaining segments.  Embeds
Python `str.split('\n')`. -/
def splitNlCore : List Char → List Char × List (List Char)
  | [] => ([], [])
  | x :: xs =>
      let r := splitNlCore xs
      if x = '\n' then ([], r.1 :: r.2) else (x :: r.1, r.2)

/-- Embedding of Python `text.split('\n')`. -/
def splitNl (l : List Char) : List (List Char) :=
  (splitNlCore l).1 :: (splitNlCore l).2

/-- Embedding of Python `'\n'.join(lines)`. -/
def joinNl : List (List Char) → List Char
  | [] => []
  | [a] => a
  | a :: b :: rest => a ++ '\n' :: joinNl (b :: rest)

theorem splitNl_no_newline :
    ∀ (l : List Char), ∀ seg ∈ splitNl l, ∀ ch ∈ seg, ch ≠ '\n' := by
  intro l
  induction l with
  | nil =>
    intro seg hseg ch hch
    simp only [splitNl, splitNlCore] at hseg
    rcases List.mem_cons.mp hseg with h | h
    · subst h; exact absurd hch (by simp)
    · exact absurd h (by simp)
  | cons x xs ih =>
    intro seg hseg ch hch
    by_cases hx : x = '\n'
    · have : splitNl (x :: xs) = [] :: splitNl xs := by
        simp [splitNl, splitNlCore, hx]
      rw [this] at hseg
      rcases List.mem_cons.mp hseg with h | h
      · subst h; exact absurd hch (by simp)
      · exact ih seg h ch hch
    · have : splitNl (x :: xs) =
          (x :: (splitNlCore xs).1) :: (splitNlCore xs).2 := by
        simp [splitNl, splitNlCore, hx]
      rw [this] at hseg
      rcases List.mem_cons.mp hseg with h | h
      · subst h
        rcases List.mem_cons.mp hch with h2 | h2
        · subst h2; exact hx
        · exact ih (splitNlCore xs).1 (List.mem_cons_self _ _) ch h2
      · exact ih seg (List.mem_cons_of_mem _ h) ch hch

theorem splitNl_runChk {c : Char} (hc : c ≠ '\n') {t : Nat} :
    ∀ (l : List Char) (k : Nat), runChk c t k l = false →
      runChk c t k (splitNlCore l).1 = false ∧
      ∀ seg ∈ (splitNlCore l).2, runChk c t 0 seg = false := by
  intro l
  induction l with
  | nil =>
    intro k _
    exact ⟨rfl, by intro seg h; exact absurd h (by simp [splitNlCore])⟩
  | cons x xs ih =>
    intro k h
    by_cases hx : x = '\n'
    · have hcore : splitNlCore (x :: xs) =
          ([], (splitNlCore xs).1 :: (splitNlCore xs).2) := by
        simp [splitNlCore, hx]
      have hxc : x ≠ c := by rw [hx]; exact fun he => hc he.symm
      rw [runChk_cons_ne _ _ _ hxc] at h
      obtain ⟨h1, h2⟩ := ih 0 h
      rw [hcore]
      refine ⟨rfl, ?_⟩
      intro seg hseg
      rcases List.mem_cons.mp hseg with hs | hs
      · rw [hs]; exact h1
      · exact h2 seg hs
    · have hcore : splitNlCore (x :: xs) =
          (x :: (splitNlCore xs).1, (splitNlCore xs).2) := by
        simp [splitNlCore, hx]
      rw [hcore]
      by_cases hxc : x = c
      · rw [hxc] at h ⊢
        rw [runChk_cons_self] at h
        rcases Bool.or_eq_false_iff.mp h with ⟨h1, h2⟩
        obtain ⟨ih1, ih2⟩ := ih (k + 1) h2
        exact ⟨by rw [runChk_cons_self, h1, Bool.false_or]; exact ih1, ih2⟩
      · rw [runChk_cons_ne _ _ _ hxc] at h
        obtain ⟨ih1, ih2⟩ := ih 0 h
        exact ⟨by rw [runChk_cons_ne _ _ _ hxc]; exact ih1, ih2⟩

theorem joinNl_runChk {c : Char} {t : Nat} (hc : '\n' ≠ c) :
    ∀ ls : List (List Char), (∀ seg ∈ ls, runChk c t 0 seg = false) →
      runChk c t 0 (joinNl ls) = false := by
  intro ls
  induction ls with
  | nil => intro _; rfl
  | cons a tail ih =>
    intro hsegs
    cases tail with
    | nil => exact hsegs a (List.mem_cons_self _ _)
    | cons b rest =>
      show runChk c t 0 (a ++ '\n' :: joinNl (b :: rest)) = false
      refine runChk_append_sep hc a 0 _ (hsegs a (List.mem_cons_self _ _)) ?_
      exact ih (fun seg hseg => hsegs seg (List.mem_cons_of_mem _ hseg))

theorem joinNl_no_double_newline :
    ∀ (ls : List (List Char)) (k : Nat),
      (∀ seg ∈ ls, seg ≠ [] ∧ ∀ ch ∈ seg, ch ≠ '\n') →
      runChk '\n' 2 k (joinNl ls) = false := by
  intro ls
  induction ls with
  | nil => intro k _; rfl
  | cons a tail ih =>
    intro k hsegs
    obtain ⟨hane, hafree⟩ := hsegs a (List.mem_cons_self _ _)
    cases tail with
    | nil => exact runChk_of_not_mem 2 a k hafree
    | cons b rest =>
      show runChk '\n' 2 k (a ++ '\n' :: joinNl (b :: rest)) = false
      rw [runChk_append_free 2 a k _ hane hafree, runChk_cons_self]
      have h0 : decide (2 ≤ 0 + 1) = false := by decide
      rw [h0, Bool.false_or]
      exact ih 1 (fun seg hseg => hsegs seg (List.mem_cons_of_mem _ hseg))

theorem splitNlCore_free :
    ∀ (a : List Char), (∀ ch ∈ a, ch ≠ '\n') → splitNlCore a = (a, []) := by
  intro a
  induction a with
  | nil => intro _; rfl
  | cons x xs ih =>
    intro hfree
    have hx : x ≠ '\n' := hfree x (List.mem_cons_self _ _)
    have hxs := ih (fun ch hch => hfree ch (List.mem_cons_of_mem _ hch))
    simp [splitNlCore, hx, hxs]

theorem splitNlCore_append :
    ∀ (a m : List Char), (∀ ch ∈ a, ch ≠ '\n') →
      splitNlCore (a ++ '\n' :: m) =
        (a, (splitNlCore m).1 :: (splitNlCore m).2) := by
  intro a
  induction a with
  | nil => intro m _; simp [splitNlCore]
  | cons x xs ih =>
    intro m hfree
    have hx : x ≠ '\n' := hfree x (List.mem_cons_self _ _)
    have hxs := ih m (fun ch hch => hfree ch (List.mem_cons_of_mem _ hch))
    simp [splitNlCore, hx, hxs]

theorem splitNl_joinNl :
    ∀ ls : List (List Char), ls ≠ [] →
      (∀ seg ∈ ls, ∀ ch ∈ seg, ch ≠ '\n') →
      splitNl (joinNl ls) = ls := by
  intro ls
  induction ls with
  | nil => intro h _; exact absurd rfl h
  | cons a tail ih =>
    intro _ hfree
    cases tail with
    | nil =>
      show splitNl a = [a]
      unfold splitNl
      rw [splitNlCore_free a (hfree a (List.mem_cons_self _ _))]
    | cons b rest =>
      show splitNl (a ++ '\n' :: joinNl (b :: rest)) = a :: b :: rest
      unfold splitNl
      rw [splitNlCore_append a _ (hfree a (List.mem_cons_self _ _))]
      have := ih (by simp) (fun seg hseg => hfree seg (List.mem_cons_of_mem _ hseg))
      unfold splitNl at this
      simpa using this

/-! ## Markdown cleaner (src/scraper.py, `clean_markdown_content`) -/

/-- Navigation markers of the line filter (src/scraper.py line 51), compared
against the lowercased line by `str.startswith`. -/
def navHeads : List (List Char) :=
  ["menu".toList, "nav".toList, "skip to".toList,
   "home |".toList, "| home".toList]

/-- Embedding of `line.lower().startswith(('menu', 'nav', 'skip to',
'home |', '| home'))` (src/scraper.py line 51). -/
def lowerStartsNav (l : List Char) : Bool :=
  navHeads.any (fun p => startsWith p (l.map Char.toLower))

/-- Embedding of `re.match(r'^[\s\|\-]+$', line)` (src/scraper.py line 52):
the line is nonempty and consists only of whitespace, pipes and hyphens. -/
def pipeDashOnly (l : List Char) : Bool :=
  !l.isEmpty && l.all (fun c => isPySpace c || c == '|' || c == '-')

/-- Embedding of the skip condition of the line filter in
`clean_markdown_content` (src/scraper.py lines 50-54); a line is kept iff the
condition is false. -/
def keepLine (line : List Char) : Bool :=
  !(decide (line.length < 3) || lowerStartsNav line || pipeDashOnly line ||
    decide (5 < line.countP (fun c => c == '|')))

/-- The three regular-expression collapses of `clean_markdown_content`
(src/scraper.py lines 37-41): `\n{3,}` to two newlines, then `\*{3,}` to
`**`, then `_{3,}` to `__`. -/
def cmcStage3 (markdown_text : List Char) : List Char :=
  collapseRun '_' 2 (collapseRun '*' 2 (collapseRun '\n' 2 markdown_text))

/-- The line-filtering stage of `clean_markdown_content` (src/scraper.py
lines 44-55): split on newline, strip each line, keep the lines passing the
filter. -/
def cmcLines (markdown_text : List Char) : List (List Char) :=
  ((splitNl (cmcStage3 markdown_text)).map (pyStrip isPySpace)).filter keepLine

/-- Embedding of `clean_markdown_content` (src/scraper.py lines 31-57):
empty input yields the empty string, otherwise the regex collapses, then the
line filter, then a newline join of the surviving lines. -/
def clean_markdown_content (markdown_text : List Char) : List Char :=
  if markdown_text.isEmpty then [] else joinNl (cmcLines markdown_text)

theorem cmcLines_mem {s d : List Char} (hd : d ∈ cmcLines s) :
    (∃ seg ∈ splitNl (cmcStage3 s), d = pyStrip isPySpace seg) ∧
    keepLine d = true := by
  unfold cmcLines at hd
  obtain ⟨hmem, hkeep⟩ := List.mem_filter.mp hd
  obtain ⟨seg, hseg, hmap⟩ := List.mem_map.mp hmem
  exact ⟨⟨seg, hseg, hmap.symm⟩, hkeep⟩

theorem cmcLines_length {s d : List Char} (hd : d ∈ cmcLines s) :
    3 ≤ d.length := by
  have hkeep := (cmcLines_mem hd).2
  by_contra hlt
  have h3 : decide (d.length < 3) = true := by
    simp only [decide_eq_true_eq]; omega
  unfold keepLine at hkeep
  rw [h3] at hkeep
  simp at hkeep

theorem cmcLines_stripped {s d : List Char} (hd : d ∈ cmcLines s) :
    pyStrip isPySpace d = d := by
  obtain ⟨⟨seg, _, rfl⟩, _⟩ := cmcLines_mem hd
  exact pyStrip_idem isPySpace seg

theorem cmcLines_ne_nil {s d : List Char} (hd : d ∈ cmcLines s) : d ≠ [] := by
  have := cmcLines_length hd
  intro h
  rw [h] at this
  simp at this

theorem cmcLines_free {s d : List Char} (hd : d ∈ cmcLines s) :
    ∀ ch ∈ d, ch ≠ '\n' := by
  obtain ⟨⟨seg, hseg, rfl⟩, _⟩ := cmcLines_mem hd
  intro ch hch
  exact splitNl_no_newline (cmcStage3 s) seg hseg ch (mem_of_mem_pyStrip hch)

theorem cmcLines_runChk {c : Char} (hc : c ≠ '\n') {s : List Char}
    (h3 : runChk c 3 0 (cmcStage3 s) = false) :
    ∀ d ∈ cmcLines s, runChk c 3 0 d = false := by
  intro d hd
  obtain ⟨⟨seg, hseg, rfl⟩, _⟩ := cmcLines_mem hd
  have hsegs := splitNl_runChk hc (cmcStage3 s) 0 h3
  have hseg2 : runChk c 3 0 seg = false := by
    rcases List.mem_cons.mp hseg with h | h
    · rw [h]; exact hsegs.1
    · exact hsegs.2 seg h
  exact runChk_false_pyStrip isPySpace hseg2

/-- Shared helper: the output of `clean_markdown_content` never contains two
consecutive newline characters. -/
theorem cmc_no_double_newline (s : List Char) :
    runChk '\n' 2 0 (clean_markdown_content s) = false := by
  unfold clean_markdown_content
  by_cases hs : s.isEmpty
  · rw [if_pos hs]; rfl
  · rw [if_neg hs]
    exact joinNl_no_double_newline (cmcLines s) 0
      (fun seg hseg => ⟨cmcLines_ne_nil hseg, cmcLines_free hseg⟩)

/-- C4: for every input string, the output of `clean_markdown_content` never
contains 3 or more consecutive newline characters, nor a run of 3 or more
consecutive `*` characters, nor a run of 3 or more consecutive `_`
characters. -/
theorem C4_no_triple_runs (s : List Char) :
    hasRunGe '\n' 3 (clean_markdown_content s) = false ∧
    hasRunGe '*' 3 (clean_markdown_content s) = false ∧
    hasRunGe '_' 3 (clean_markdown_content s) = false := by
  refine ⟨?_, ?_, ?_⟩
  · exact runChk_t_mono (by omega) _ 0 (cmc_no_double_newline s)
  · unfold clean_markdown_content hasRunGe
    by_cases hs : s.isEmpty
    · rw [if_pos hs]; rfl
    · rw [if_neg hs]
      have hstage : runChk '*' 3 0 (cmcStage3 s) = false := by
        unfold cmcStage3
        exact collapseAux_pres (by decide)
          (collapseRun '*' 2 (collapseRun '\n' 2 s)) 0 0
          (collapseAux_noRun (by omega) (collapseRun '\n' 2 s) 0)
      exact joinNl_runChk (by decide) (cmcLines s)
        (cmcLines_runChk (by decide) hstage)
  · unfold clean_markdown_content hasRunGe
    by_cases hs : s.isEmpty
    · rw [if_pos hs]; rfl
    · rw [if_neg hs]
      have hstage : runChk '_' 3 0 (cmcStage3 s) = false := by
        unfold cmcStage3
        exact collapseAux_noRun (by omega)
          (collapseRun '*' 2 (collapseRun '\n' 2 s)) 0
      exact joinNl_runChk (by decide) (cmcLines s)
        (cmcLines_runChk (by decide) hstage)

/-- C10: for every input, every newline-separated line of a nonempty output
of `clean_markdown_content` has length at least 3 and is already stripped (so
its length after stripping is at least 3, and no line is blank), and the
output never contains two consecutive newlines, so the size-bounded
splitter's double-newline separator cannot match inside cleaned content. -/
theorem C10_no_blank_lines (s : List Char) :
    (clean_markdown_content s ≠ [] →
      ∀ seg ∈ splitNl (clean_markdown_content s),
        3 ≤ seg.length ∧ pyStrip isPySpace seg = seg) ∧
    hasRunGe '\n' 2 (clean_markdown_content s) = false := by
  constructor
  · intro hne seg hseg
    have hsEmp : s.isEmpty = false := by
      by_contra h
      have h2 : s.isEmpty = true := by simpa using h
      apply hne
      unfold clean_markdown_content
      rw [if_pos h2]
    have hout : clean_markdown_content s = joinNl (cmcLines s) := by
      unfold clean_markdown_content
      rw [if_neg (by simp [hsEmp])]
    have hlines : cmcLines s ≠ [] := by
      intro h
      apply hne
      rw [hout, h]
      rfl
    have hsplit : splitNl (clean_markdown_content s) = cmcLines s := by
      rw [hout]
      exact splitNl_joinNl (cmcLines s) hlines (fun d hd => cmcLines_free hd)
    rw [hsplit] at hseg
    exact ⟨cmcLines_length hseg, cmcLines_stripped hseg⟩
  · exact cmc_no_double_newline s

/-- Witness for C10 at the concrete input "Hello world": the single output
line has length at least 3 and is stripped. -/
theorem C10_no_blank_lines_witness :
    3 ≤ ("Hello world".toList).length ∧
      pyStrip isPySpace "Hello world".toList = "Hello world".toList := by
  have h := (C10_no_blank_lines "Hello world".toList).1 (by decide)
    "Hello world".toList (by decide)
  exact h

/-! ## Scrape pipeline core (src/scraper.py, `scrape_and_process_url`) -/

/-- Embedding of the content sufficiency check (src/scraper.py line 130):
`not markdown_content.strip() or len(markdown_content.strip()) < 100`. -/
def insufficient_content (markdown_content : List Char) : Bool :=
  (pyStrip isPySpace markdown_content).isEmpty ||
  decide ((pyStrip isPySpace markdown_content).length < 100)

/-- Embedding of `re.match(r'^[\s\W]*$', clean_content)` (src/scraper.py
line 187): the regex matches exactly when every character is whitespace or a
non-word character. -/
def matchNonWord (l : List Char) : Bool :=
  l.all (fun c => isPySpace c || !(isWordChar c))

/-- Embedding of the final chunk filter (src/scraper.py lines 183-189): with
`clean_content = chunk.page_content.strip()`, keep the chunk iff
`len(clean_content) > 50 and not re.match(r'^[\s\W]*$', clean_content)`, and
the surviving chunk carries `clean_content`. -/
def filterValidChunks (chunks : List Doc) : List Doc :=
  chunks.filterMap (fun ch =>
    if 50 < (pyStrip isPySpace ch.page_content).length ∧
        matchNonWord (pyStrip isPySpace ch.page_content) = false then
      some { page_content := pyStrip isPySpace ch.page_content,
             metadata := ch.metadata }
    else none)

/-- Chunk assembly of `scrape_and_process_url` (src/scraper.py lines
134-181).  `headerSplit` stands for `MarkdownHeaderTextSplitter.split_text`
together with its exception handler (which yields `[]`), `sizeSplit` for
`RecursiveCharacterTextSplitter.split_documents([split])` and `createDocs`
for `RecursiveCharacterTextSplitter.create_documents` — all three are
langchain library calls, not repository code.  When the header splitter
returns a non-empty list, every split's metadata is enriched (base metadata
update plus the section lookup) and the split is further size-split;
otherwise the fallback creates documents from the whole markdown with the
base metadata. -/
def assembled_chunks (headerSplit : List Char → List Doc)
    (sizeSplit : Doc → List Doc)
    (createDocs : List Char → List (String × String) → List Doc)
    (base_metadata : List (String × String)) (mdClean : List Char) :
    List Doc :=
  if (headerSplit mdClean).isEmpty then createDocs mdClean base_metadata
  else ((headerSplit mdClean).map (fun s =>
    sizeSplit { page_content := s.page_content,
                metadata := enrichMeta base_metadata s.metadata })).flatten

/-- Embedding of the pure core of `scrape_and_process_url` (src/scraper.py
lines 128-196), starting after the browser fetch and the html2text
conversion: clean the markdown, reject insufficient content with `none`,
assemble chunks via the (library) splitters, filter them, and return `none`
when no valid chunk remains, otherwise the valid chunks. -/
def scrape_and_process_url (headerSplit : List Char → List Doc)
    (sizeSplit : Doc → List Doc)
    (createDocs : List Char → List (String × String) → List Doc)
    (base_metadata : List (String × String))
    (markdown_content : List Char) : Option (List Doc) :=
  if insufficient_content (clean_markdown_content markdown_content) then none
  else
    if (filterValidChunks (assembled_chunks headerSplit sizeSplit createDocs
        base_metadata (clean_markdown_content markdown_content))).isEmpty
    then none
    else some (filterValidChunks (assembled_chunks headerSplit sizeSplit
      createDocs base_metadata (clean_markdown_content markdown_content)))

/-- Degenerate header splitter: no headers were found, the library split
list is empty. -/
def noHeaderSplit : List Char → List Doc := fun _ => []

/-- Degenerate size splitter: the content fits into a single chunk. -/
def idSizeSplit : Doc → List Doc := fun d => [d]

/-- Degenerate document creation: one document carrying the whole markdown
and the given metadata. -/
def oneDocCreate : List Char → List (String × String) → List Doc :=
  fun c m => [{ page_content := c, metadata := m }]

theorem filterValidChunks_mem {chunks : List Doc} {d : Doc}
    (hd : d ∈ filterValidChunks chunks) :
    pyStrip isPySpace d.page_content = d.page_content ∧
    50 < d.page_content.length ∧
    ∃ ch ∈ d.page_content, isWordChar ch = true := by
  unfold filterValidChunks at hd
  obtain ⟨ch0, _, hmap⟩ := List.mem_filterMap.mp hd
  by_cases hcond : 50 < (pyStrip isPySpace ch0.page_content).length ∧
      matchNonWord (pyStrip isPySpace ch0.page_content) = false
  · rw [if_pos hcond] at hmap
    obtain ⟨hlen, hword⟩ := hcond
    have hd2 : d = ⟨pyStrip isPySpace ch0.page_content, ch0.metadata⟩ :=
      (Option.some.inj hmap).symm
    subst hd2
    refine ⟨pyStrip_idem isPySpace ch0.page_content, hlen, ?_⟩
    by_contra hnone
    push_neg at hnone
    have hall : matchNonWord (pyStrip isPySpace ch0.page_content) = true := by
      unfold matchNonWord
      rw [List.all_eq_true]
      intro c hc
      have hcw := hnone c hc
      have hw : isWordChar c = false := by
        cases hcb : isWordChar c
        · rfl
        · exact absurd hcb hcw
      rw [hw]
      simp
    rw [hall] at hword
    exact Bool.noConfusion hword
  · rw [if_neg hcond] at hmap
    exact Option.noConfusion hmap

/-- C3: every chunk in a non-`none` result of `scrape_and_process_url` is
stripped, longer than 50 characters, and contains a word character; and when
the final filter leaves zero chunks the function returns `none` (a defined
empty outcome of the `Option` type, not an exception). -/
theorem C3_valid_chunk_invariants (hs : List Char → List Doc)
    (ss : Doc → List Doc)
    (cd : List Char → List (String × String) → List Doc)
    (b : List (String × String)) (md : List Char) :
    (∀ cs, scrape_and_process_url hs ss cd b md = some cs →
      cs ≠ [] ∧ ∀ d ∈ cs,
        pyStrip isPySpace d.page_content = d.page_content ∧
        50 < d.page_content.length ∧
        ∃ ch ∈ d.page_content, isWordChar ch = true) ∧
    (filterValidChunks (assembled_chunks hs ss cd b
        (clean_markdown_content md)) = [] →
      scrape_and_process_url hs ss cd b md = none) := by
  constructor
  · intro cs h
    unfold scrape_and_process_url at h
    by_cases hins : insufficient_content (clean_markdown_content md) = true
    · rw [if_pos hins] at h
      exact Option.noConfusion h
    · rw [if_neg hins] at h
      by_cases hv : (filterValidChunks (assembled_chunks hs ss cd b
          (clean_markdown_content md))).isEmpty = true
      · rw [if_pos hv] at h
        exact Option.noConfusion h
      · rw [if_neg hv] at h
        have hcs : cs = filterValidChunks (assembled_chunks hs ss cd b
            (clean_markdown_content md)) := (Option.some.inj h).symm
        subst hcs
        constructor
        · intro hnil
          apply hv
          rw [hnil]
          rfl
        · intro d hd
          exact filterValidChunks_mem hd
  · intro h0
    unfold scrape_and_process_url
    by_cases hins : insufficient_content (clean_markdown_content md) = true
    · rw [if_pos hins]
    · rw [if_neg hins, if_pos (by rw [h0]; rfl)]

set_option maxRecDepth 100000 in
/-- Witness for C3 at a concrete input of 120 word characters and the
degenerate library splitters: the single surviving chunk satisfies all three
invariants. -/
theorem C3_valid_chunk_invariants_witness :
    ([⟨List.replicate 120 'a', []⟩] : List Doc) ≠ [] ∧
    ∀ d ∈ ([⟨List.replicate 120 'a', []⟩] : List Doc),
      pyStrip isPySpace d.page_content = d.page_content ∧
      50 < d.page_content.length ∧
      ∃ ch ∈ d.page_content, isWordChar ch = true := by
  exact (C3_valid_chunk_invariants noHeaderSplit idSizeSplit oneDocCreate []
    (List.replicate 120 'a')).1 [⟨List.replicate 120 'a', []⟩] (by decide)

set_option maxRecDepth 100000 in
/-- Counterexample for C2: a cleaned markdown whose stripped length is
exactly 100 characters is NOT treated as yielding no usable content — the
check at src/scraper.py line 130 uses a strict `< 100`, so the function
proceeds and (with the degenerate splitters) returns a non-`none` result,
refuting the claim that `none` is returned whenever the stripped length does
not exceed 100. -/
theorem C2_exactly_100_not_rejected :
    (pyStrip isPySpace
      (clean_markdown_content (List.replicate 100 'a'))).length = 100 ∧
    insufficient_content
      (clean_markdown_content (List.replicate 100 'a')) = false ∧
    scrape_and_process_url noHeaderSplit idSizeSplit oneDocCreate []
      (List.replicate 100 'a') ≠ none := by
  refine ⟨by decide, by decide, by decide⟩

/-- C2 (amended): `scrape_and_process_url` signals no usable content
whenever the cleaned markdown's stripped length is strictly below 100; every
non-`none` result has stripped length at least 100; and a stripped length of
exactly 100 passes the sufficiency check. -/
theorem C2_content_threshold (hs : List Char → List Doc)
    (ss : Doc → List Doc)
    (cd : List Char → List (String × String) → List Doc)
    (b : List (String × String)) (md : List Char) :
    ((pyStrip isPySpace (clean_markdown_content md)).length < 100 →
      scrape_and_process_url hs ss cd b md = none) ∧
    (scrape_and_process_url hs ss cd b md ≠ none →
      100 ≤ (pyStrip isPySpace (clean_markdown_content md)).length) ∧
    ((pyStrip isPySpace (clean_markdown_content md)).length = 100 →
      insufficient_content (clean_markdown_content md) = false) := by
  have hfwd : (pyStrip isPySpace (clean_markdown_content md)).length < 100 →
      scrape_and_process_url hs ss cd b md = none := by
    intro h
    have hins : insufficient_content (clean_markdown_content md) = true := by
      unfold insufficient_content
      rw [Bool.or_eq_true]
      exact Or.inr (decide_eq_true h)
    unfold scrape_and_process_url
    rw [if_pos hins]
  refine ⟨hfwd, ?_, ?_⟩
  · intro hne
    by_contra hlt
    push_neg at hlt
    exact hne (hfwd hlt)
  · intro h
    unfold insufficient_content
    have h1 : (pyStrip isPySpace (clean_markdown_content md)).isEmpty = false := by
      cases hp : pyStrip isPySpace (clean_markdown_content md) with
      | nil => rw [hp] at h; simp at h
      | cons x xs => rfl
    rw [h1, h]
    decide

set_option maxRecDepth 100000 in
/-- Witness for C2 (amended): at 99 characters the result is `none`, and at
exactly 100 characters the sufficiency check passes. -/
theorem C2_content_threshold_witness :
    scrape_and_process_url noHeaderSplit idSizeSplit oneDocCreate []
        (List.replicate 99 'a') = none ∧
    insufficient_content
      (clean_markdown_content (List.replicate 100 'a')) = false := by
  constructor
  · exact (C2_content_threshold noHeaderSplit idSizeSplit oneDocCreate []
      (List.replicate 99 'a')).1 (by decide)
  · exact (C2_content_threshold noHeaderSplit idSizeSplit oneDocCreate []
      (List.replicate 100 'a')).2.2 (by decide)

/-! ## Text cleaner and JSON saver (src/utils.py) -/

/-- Control characters removed by `clean_text`
(src/utils.py line 17, `[\x00-\x08\x0B\x0C\x0E-\x1F\x7F-\x9F]`). -/
def isCtrlChar (c : Char) : Bool :=
  c.toNat ≤ 0x08 || c.toNat == 0x0B || c.toNat == 0x0C ||
  (0x0E ≤ c.toNat && c.toNat ≤ 0x1F) ||
  (0x7F ≤ c.toNat && c.toNat ≤ 0x9F)

/-- Worker for `collapseClassRuns`; `inRun` records whether the previous
character belonged to the class. -/
def collapseClassAux (p : Char → Bool) (out : List Char) (inRun : Bool) :
    List Char → List Char
  | [] => []
  | x :: xs =>
      if p x then
        if inRun then collapseClassAux p out true xs
        else out ++ collapseClassAux p out true xs
      else x :: collapseClassAux p out false xs

/-- Embedding of `re.sub(r'CLASS+', out, text)`: every maximal nonempty run
of characters of the class `p` is replaced by `out`
(src/utils.py line 14 with `p = \s`, line 21 with `p = \t`). -/
def collapseClassRuns (p : Char → Bool) (out : List Char) (l : List Char) :
    List Char :=
  collapseClassAux p out false l

/-- Action of `re.sub(r'\n\s*\n\s*\n+', '\n\n', ...)` on one maximal
whitespace run (src/utils.py line 20).  The regex can match exactly a
whitespace span that starts and ends with a newline and contains at least 3
newlines; within a maximal whitespace run the leftmost greedy match runs
from the run's first newline through its last newline, provided that span
contains at least 3 newlines, and no other match can start inside the run. -/
def sub3Run (run : List Char) : List Char :=
  if 3 ≤ (stripRight (fun c => c != '\n')
      (run.dropWhile (fun c => c != '\n'))).countP (fun c => c == '\n') then
    run.takeWhile (fun c => c != '\n') ++ '\n' :: '\n' ::
      (run.dropWhile (fun c => c != '\n')).drop
        (stripRight (fun c => c != '\n')
          (run.dropWhile (fun c => c != '\n'))).length
  else run

/-- Worker for `cleanSub3`; `pend` is the reversed whitespace run currently
being collected. -/
def cleanSub3Aux (pend : List Char) : List Char → List Char
  | [] => sub3Run pend.reverse
  | x :: xs =>
      if isPySpace x then cleanSub3Aux (x :: pend) xs
      else sub3Run pend.reverse ++ x :: cleanSub3Aux [] xs

/-- Embedding of `re.sub(r'\n\s*\n\s*\n+', '\n\n', text)`
(src/utils.py line 20): matches lie inside maximal whitespace runs, which
are rewritten by `sub3Run`. -/
def cleanSub3 (l : List Char) : List Char :=
  cleanSub3Aux [] l

/-- Embedding of `clean_text` (src/utils.py lines 8-27): empty input yields
the empty string; otherwise collapse whitespace runs to a single space,
remove control characters, apply the newline-run substitution, collapse tab
runs to a space, collapse runs of 3 or more dots to `...` and of 3 or more
hyphens to `---`, and strip the result. -/
def clean_text (text : List Char) : List Char :=
  if text.isEmpty then []
  else
    pyStrip isPySpace
      (collapseRun '-' 3
        (collapseRun '.' 3
          (collapseClassRuns (fun c => c == '\t') [' ']
            (cleanSub3
              ((collapseClassRuns isPySpace [' '] text).filter
                (fun c => !(isCtrlChar c)))))))

/-- An element of a `{safe-filename}_chunks.json` array written by
`save_docs_to_json` (src/utils.py lines 37-41). -/
structure SavedRec where
  page_content : List Char
  metadata : List (String × String)
  content_length : Nat
deriving DecidableEq

/-- The record `save_docs_to_json` builds for a document. -/
def mkSavedRec (d : Doc) : SavedRec :=
  ⟨clean_text d.page_content, d.metadata, (clean_text d.page_content).length⟩

/-- Embedding of `save_docs_to_json` (src/utils.py lines 29-50): clean every
document's content and keep the records whose cleaned content is truthy and
longer than 50 characters.  The file write itself is I/O; the embedding
returns the array that is serialized. -/
def save_docs_to_json (docs : List Doc) : List SavedRec :=
  docs.filterMap (fun doc =>
    if ¬ (clean_text doc.page_content).isEmpty = true ∧
        50 < (clean_text doc.page_content).length then
      some (mkSavedRec doc)
    else none)

/-- C6: every record in a written chunks array has `content_length` equal to
the length of its `page_content`, its `page_content` is the
`clean_text`-cleaned content of some input document and is longer than 50
characters, and a document whose cleaned content is at most 50 characters
long contributes no record. -/
theorem C6_saved_records (docs : List Doc) :
    (∀ r ∈ save_docs_to_json docs,
      r.content_length = r.page_content.length ∧
      50 < r.page_content.length ∧
      ∃ d ∈ docs, r.page_content = clean_text d.page_content ∧
        r.metadata = d.metadata) ∧
    (∀ d ∈ docs, (clean_text d.page_content).length ≤ 50 →
      mkSavedRec d ∉ save_docs_to_json docs) := by
  constructor
  · intro r hr
    unfold save_docs_to_json at hr
    obtain ⟨d0, hd0, hmap⟩ := List.mem_filterMap.mp hr
    by_cases hcond : ¬ (clean_text d0.page_content).isEmpty = true ∧
        50 < (clean_text d0.page_content).length
    · rw [if_pos hcond] at hmap
      have hr2 : r = mkSavedRec d0 := (Option.some.inj hmap).symm
      subst hr2
      exact ⟨rfl, hcond.2, d0, hd0, rfl, rfl⟩
    · rw [if_neg hcond] at hmap
      exact Option.noConfusion hmap
  · intro d _ hlen hmem
    unfold save_docs_to_json at hmem
    obtain ⟨d0, _, hmap⟩ := List.mem_filterMap.mp hmem
    by_cases hcond : ¬ (clean_text d0.page_content).isEmpty = true ∧
        50 < (clean_text d0.page_content).length
    · rw [if_pos hcond] at hmap
      have heq : mkSavedRec d0 = mkSavedRec d := Option.some.inj hmap
      have hlen2 := congrArg SavedRec.content_length heq
      simp only [mkSavedRec] at hlen2
      omega
    · rw [if_neg hcond] at hmap
      exact Option.noConfusion hmap

set_option maxRecDepth 100000 in
/-- Witness for C6 on a two-document list: the long document's record
satisfies the record invariants, and the short document contributes no
record. -/
theorem C6_saved_records_witness :
    ((mkSavedRec ⟨List.replicate 60 'a', []⟩).content_length =
        (mkSavedRec ⟨List.replicate 60 'a', []⟩).page_content.length ∧
      50 < (mkSavedRec ⟨List.replicate 60 'a', []⟩).page_content.length ∧
      ∃ d ∈ [(⟨"hi".toList, []⟩ : Doc), ⟨List.replicate 60 'a', []⟩],
        (mkSavedRec ⟨List.replicate 60 'a', []⟩).page_content =
          clean_text d.page_content ∧
        (mkSavedRec ⟨List.replicate 60 'a', []⟩).metadata = d.metadata) ∧
    mkSavedRec ⟨"hi".toList, []⟩ ∉
      save_docs_to_json [⟨"hi".toList, []⟩, ⟨List.replicate 60 'a', []⟩] := by
  constructor
  · exact (C6_saved_records [⟨"hi".toList, []⟩, ⟨List.replicate 60 'a', []⟩]).1
      (mkSavedRec ⟨List.replicate 60 'a', []⟩) (by decide)
  · exact (C6_saved_records [⟨"hi".toList, []⟩, ⟨List.replicate 60 'a', []⟩]).2
      ⟨"hi".toList, []⟩ (by decide) (by decide)

/-! ## RAG summary (src/utils.py, `create_rag_summary`) -/

/-- Python `min` on a list of naturals (only applied to nonempty lists by
the source; the empty case is a dummy). -/
def listMin : List Nat → Nat
  | [] => 0
  | x :: xs => xs.foldl Nat.min x

/-- Python `max` on a list of naturals (only applied to nonempty lists by
the source; the empty case is a dummy). -/
def listMax : List Nat → Nat
  | [] => 0
  | x :: xs => xs.foldl Nat.max x

theorem foldlMin_mem : ∀ (xs : List Nat) (x : Nat), xs.foldl Nat.min x ∈ x :: xs := by
  intro xs
  induction xs with
  | nil => intro x; exact List.mem_singleton.mpr rfl
  | cons y ys ih =>
    intro x
    have h := ih (Nat.min x y)
    have hmin : Nat.min x y = x ∨ Nat.min x y = y := by
      rcases Nat.le_total x y with h2 | h2
      · exact Or.inl (Nat.min_eq_left h2)
      · exact Or.inr (Nat.min_eq_right h2)
    rw [List.foldl_cons]
    rcases List.mem_cons.mp h with h1 | h1
    · rcases hmin with h2 | h2
      · refine List.mem_cons.mpr (Or.inl ?_)
        rw [h1, h2]
      · refine List.mem_cons.mpr (Or.inr (List.mem_cons.mpr (Or.inl ?_)))
        rw [h1, h2]
    · exact List.mem_cons.mpr (Or.inr (List.mem_cons.mpr (Or.inr h1)))

theorem foldlMin_le : ∀ (xs : List Nat) (x : Nat),
    xs.foldl Nat.min x ≤ x ∧ ∀ n ∈ xs, xs.foldl Nat.min x ≤ n := by
  intro xs
  induction xs with
  | nil => intro x; exact ⟨Nat.le_refl x, by intro n hn; exact absurd hn (by simp)⟩
  | cons y ys ih =>
    intro x
    obtain ⟨h1, h2⟩ := ih (Nat.min x y)
    refine ⟨Nat.le_trans h1 (Nat.min_le_left x y), ?_⟩
    intro n hn
    rcases List.mem_cons.mp hn with h3 | h3
    · rw [h3]
      exact Nat.le_trans h1 (Nat.min_le_right x y)
    · exact h2 n h3

theorem foldlMax_mem : ∀ (xs : List Nat) (x : Nat), xs.foldl Nat.max x ∈ x :: xs := by
  intro xs
  induction xs with
  | nil => intro x; exact List.mem_singleton.mpr rfl
  | cons y ys ih =>
    intro x
    have h := ih (Nat.max x y)
    have hmax : Nat.max x y = x ∨ Nat.max x y = y := by
      rcases Nat.le_total x y with h2 | h2
      · exact Or.inr (Nat.max_eq_right h2)
      · exact Or.inl (Nat.max_eq_left h2)
    rw [List.foldl_cons]
    rcases List.mem_cons.mp h with h1 | h1
    · rcases hmax with h2 | h2
      · refine List.mem_cons.mpr (Or.inl ?_)
        rw [h1, h2]
      · refine List.mem_cons.mpr (Or.inr (List.mem_cons.mpr (Or.inl ?_)))
        rw [h1, h2]
    · exact List.mem_cons.mpr (Or.inr (List.mem_cons.mpr (Or.inr h1)))

theorem foldlMax_le : ∀ (xs : List Nat) (x : Nat),
    x ≤ xs.foldl Nat.max x ∧ ∀ n ∈ xs, n ≤ xs.foldl Nat.max x := by
  intro xs
  induction xs with
  | nil => intro x; exact ⟨Nat.le_refl x, by intro n hn; exact absurd hn (by simp)⟩
  | cons y ys ih =>
    intro x
    obtain ⟨h1, h2⟩ := ih (Nat.max x y)
    refine ⟨Nat.le_trans (Nat.le_max_left x y) h1, ?_⟩
    intro n hn
    rcases List.mem_cons.mp hn with h3 | h3
    · rw [h3]
      exact Nat.le_trans (Nat.le_max_right x y) h1
    · exact h2 n h3

/-- Round a rational to the nearest integer, ties to the even integer
(Python built-in `round`, modelled exactly over the rationals). -/
def roundHalfEven (q : ℚ) : ℤ :=
  if q - ⌊q⌋ < 1/2 then ⌊q⌋
  else if 1/2 < q - ⌊q⌋ then ⌊q⌋ + 1
  else if ⌊q⌋ % 2 = 0 then ⌊q⌋ else ⌊q⌋ + 1

/-- Python `round(x, 2)`, modelled exactly over the rationals. -/
def pyRound2 (q : ℚ) : ℚ :=
  (roundHalfEven (q * 100) : ℚ) / 100

/-- The `content_stats` object of a RAG summary (src/utils.py lines 74-79);
the average is modelled as an exact rational in place of a Python float. -/
structure ContentStats where
  avg_chunk_length : ℚ
  min_chunk_length : Nat
  max_chunk_length : Nat
  total_characters : Nat
deriving DecidableEq

/-- The summary object built by `create_rag_summary`
(src/utils.py lines 70-82). -/
structure RagSummary where
  total_documents : Nat
  unique_sources : Nat
  sources : List String
  content_stats : ContentStats
  ready_for_rag : Bool
  embedding_compatible : Bool
deriving DecidableEq

/-- The result of `create_rag_summary`: either the error dictionary
`{"error": ...}` or a summary dictionary. -/
inductive RagResult where
  | error (msg : String)
  | summary (s : RagSummary)
deriving DecidableEq

/-- Embedding of `create_rag_summary` (src/utils.py lines 58-84).  Python
`list(set(...))` produces the distinct source values in unspecified order;
it is modelled by `List.dedup` (distinct values, one occurrence each). -/
def create_rag_summary (all_chunks : List Doc) : RagResult :=
  if all_chunks.isEmpty then RagResult.error "No chunks available"
  else
    RagResult.summary
      { total_documents := all_chunks.length,
        unique_sources :=
          ((all_chunks.map
            (fun c => getValD c.metadata "source" "Unknown")).dedup).length,
        sources :=
          (all_chunks.map
            (fun c => getValD c.metadata "source" "Unknown")).dedup,
        content_stats :=
          { avg_chunk_length := pyRound2
              (((all_chunks.map (fun c => c.page_content.length)).sum : ℚ) /
                ((all_chunks.map (fun c => c.page_content.length)).length : ℚ)),
            min_chunk_length :=
              listMin (all_chunks.map (fun c => c.page_content.length)),
            max_chunk_length :=
              listMax (all_chunks.map (fun c => c.page_content.length)),
            total_characters :=
              (all_chunks.map (fun c => c.page_content.length)).sum },
        ready_for_rag := true,
        embedding_compatible := true }

/-- The reported average of a `create_rag_summary` result. -/
def ragAvg : RagResult → ℚ
  | RagResult.error _ => 0
  | RagResult.summary s => s.content_stats.avg_chunk_length

/-- A concrete three-chunk list with content lengths 1, 1 and 2. -/
def ragDocs3 : List Doc :=
  [⟨['a'], [("source", "u1")]⟩, ⟨['b'], [("source", "u2")]⟩, ⟨['c', 'd'], []⟩]

/-- Counterexample for C7: on three chunks of lengths 1, 1 and 2 the
reported `avg_chunk_length` is `round(4/3, 2) = 1.33`, which is not the
average `4/3` of the content lengths — the code rounds the average to two
decimal places (src/utils.py line 75), so `content_stats` does not give the
exact average. -/
theorem C7_avg_not_exact_mean :
    ragAvg (create_rag_summary ragDocs3) = 133/100 ∧
    ((ragDocs3.map (fun c => c.page_content.length)).sum : ℚ) /
        ((ragDocs3.map (fun c => c.page_content.length)).length : ℚ) = 4/3 ∧
    (133/100 : ℚ) ≠ 4/3 := by
  have hmap : ragDocs3.map (fun c => c.page_content.length) = [1, 1, 2] := rfl
  have hfloor : (⌊(400/3 : ℚ)⌋ : ℤ) = 133 := by
    rw [Int.floor_eq_iff]
    constructor <;> norm_num
  have hround : roundHalfEven (400/3 : ℚ) = 133 := by
    unfold roundHalfEven
    rw [hfloor]
    rw [if_pos (by norm_num)]
  have hdiv : ((ragDocs3.map (fun c => c.page_content.length)).sum : ℚ) /
      ((ragDocs3.map (fun c => c.page_content.length)).length : ℚ) = 4/3 := by
    rw [hmap]
    norm_num [ragDocs3, Doc.page_content]
  refine ⟨?_, hdiv, by norm_num⟩
  have hshow : ragAvg (create_rag_summary ragDocs3) =
      pyRound2 (((ragDocs3.map (fun c => c.page_content.length)).sum : ℚ) /
        ((ragDocs3.map (fun c => c.page_content.length)).length : ℚ)) := rfl
  rw [hshow, hdiv]
  unfold pyRound2
  rw [show ((4 : ℚ)/3) * 100 = 400/3 by ring, hround]
  norm_num

/-- C7 (amended): for every non-empty chunk list, `create_rag_summary`
returns a summary whose `total_documents` is the list length, whose
`sources` are exactly the distinct source values (each once) with
`unique_sources` their count, whose min/max are a lower/upper bound attained
in the list, whose `total_characters` is the sum of the content lengths, and
whose `avg_chunk_length` is the average of the content lengths rounded to
two decimal places (ties to even); for the empty list it returns the error
result rather than crashing. -/
theorem C7_summary_stats (cs : List Doc) :
    (cs = [] → create_rag_summary cs = RagResult.error "No chunks available") ∧
    (∀ s, create_rag_summary cs = RagResult.summary s →
      s.total_documents = cs.length ∧
      s.sources.Nodup ∧
      (∀ src, src ∈ s.sources ↔
        src ∈ cs.map (fun c => getValD c.metadata "source" "Unknown")) ∧
      s.unique_sources = s.sources.length ∧
      (∀ n ∈ cs.map (fun c => c.page_content.length),
        s.content_stats.min_chunk_length ≤ n ∧
        n ≤ s.content_stats.max_chunk_length) ∧
      s.content_stats.min_chunk_length ∈
        cs.map (fun c => c.page_content.length) ∧
      s.content_stats.max_chunk_length ∈
        cs.map (fun c => c.page_content.length) ∧
      s.content_stats.total_characters =
        (cs.map (fun c => c.page_content.length)).sum ∧
      s.content_stats.avg_chunk_length = pyRound2
        (((cs.map (fun c => c.page_content.length)).sum : ℚ) /
          (cs.length : ℚ))) := by
  constructor
  · intro h
    subst h
    rfl
  · intro s h
    cases cs with
    | nil =>
      rw [show create_rag_summary [] =
        RagResult.error "No chunks available" from rfl] at h
      exact RagResult.noConfusion h
    | cons x rest =>
      unfold create_rag_summary at h
      rw [if_neg (by simp)] at h
      injection h with h2
      subst h2
      refine ⟨rfl, List.nodup_dedup _, fun src => List.mem_dedup, rfl,
        ?_, ?_, ?_, rfl, ?_⟩
      · intro n hn
        rw [List.map_cons] at hn
        show listMin (List.map (fun c => c.page_content.length) (x :: rest)) ≤ n ∧
          n ≤ listMax (List.map (fun c => c.page_content.length) (x :: rest))
        rw [List.map_cons]
        show List.foldl Nat.min x.page_content.length
            (List.map (fun c => c.page_content.length) rest) ≤ n ∧
          n ≤ List.foldl Nat.max x.page_content.length
            (List.map (fun c => c.page_content.length) rest)
        rcases List.mem_cons.mp hn with h3 | h3
        · rw [h3]
          exact ⟨(foldlMin_le (rest.map (fun c => c.page_content.length))
              x.page_content.length).1,
            (foldlMax_le (rest.map (fun c => c.page_content.length))
              x.page_content.length).1⟩
        · exact ⟨(foldlMin_le (rest.map (fun c => c.page_content.length))
              x.page_content.length).2 n h3,
            (foldlMax_le (rest.map (fun c => c.page_content.length))
              x.page_content.length).2 n h3⟩
      · show listMin (List.map (fun c => c.page_content.length) (x :: rest)) ∈
          List.map (fun c => c.page_content.length) (x :: rest)
        rw [List.map_cons]
        show List.foldl Nat.min x.page_content.length
            (List.map (fun c => c.page_content.length) rest) ∈
          x.page_content.length :: List.map (fun c => c.page_content.length) rest
        exact foldlMin_mem (rest.map (fun c => c.page_content.length))
          x.page_content.length
      · show listMax (List.map (fun c => c.page_content.length) (x :: rest)) ∈
          List.map (fun c => c.page_content.length) (x :: rest)
        rw [List.map_cons]
        show List.foldl Nat.max x.page_content.length
            (List.map (fun c => c.page_content.length) rest) ∈
          x.page_content.length :: List.map (fun c => c.page_content.length) rest
        exact foldlMax_mem (rest.map (fun c => c.page_content.length))
          x.page_content.length
      · show pyRound2
            ((((x :: rest).map (fun c => c.page_content.length)).sum : ℚ) /
              (((x :: rest).map (fun c => c.page_content.length)).length : ℚ)) =
          pyRound2
            ((((x :: rest).map (fun c => c.page_content.length)).sum : ℚ) /
              ((x :: rest).length : ℚ))
        rw [List.length_map]

/-- The summary value `create_rag_summary` yields on `ragDocs3`. -/
def ragS3 : RagSummary :=
  { total_documents := 3,
    unique_sources := 3,
    sources := ["u1", "u2", "Unknown"],
    content_stats :=
      { avg_chunk_length := pyRound2
          (((ragDocs3.map (fun c => c.page_content.length)).sum : ℚ) /
            ((ragDocs3.map (fun c => c.page_content.length)).length : ℚ)),
        min_chunk_length := 1,
        max_chunk_length := 2,
        total_characters := 4 },
    ready_for_rag := true,
    embedding_compatible := true }

/-- Witness for C7: the empty list yields the error result, and on the
concrete three-chunk list the total document count is the list length. -/
theorem C7_summary_stats_witness :
    create_rag_summary ([] : List Doc) = RagResult.error "No chunks available" ∧
    ragS3.total_documents = ragDocs3.length := by
  constructor
  · exact (C7_summary_stats []).1 rfl
  · exact ((C7_summary_stats ragDocs3).2 ragS3 rfl).1
